import Mathlib

/-!
Shallow embedding of `src/scripts/chunking_jsonl_naive.py` (the chunking
engine) and proofs of the frozen claims about it.

Modelling conventions:
* The tokenizer (`tiktoken` `_enc`) is an external collaborator; functions
  that use it are parametrised over `enc : String → List Nat` /
  `dec : List Nat → String`.  Concrete instantiations used in witnesses and
  counterexamples use a character-level codec, which satisfies the
  reversibility contract the spec assumes.
* The HTML parser (BeautifulSoup) is an external collaborator; the traversal
  of `parse_html_with_bs4` is modelled over the ordered node sequence
  (tag kind + visible text) it yields.
* Python strings are modelled as Lean `String`/`List Char`; character
  classes (`\s`, `\d`, `\w`, `isalpha`) follow their ASCII semantics.
* Machine integers do not overflow in this program (token counts, levels),
  so `Nat` is used throughout.
-/

namespace Chunking

/-! ### Configuration (the `CONFIG` dict) -/

def maxChunkTokens : Nat := 512
def chunkOverlap : Nat := 50
def minMergeTokens : Nat := 50
def minTailTokens : Nat := 30
def minWordsPerBlock : Nat := 8

/-! ### Token windower: `chunk_text` (lines 88–110)

`step = max(1, size - overlap)`; windows `tokens[idx : idx + size]` for
`idx = 0, step, 2·step, …` while `idx < len(tokens)`, with the `if not
window: break` guard; then the tail-merge step. -/

def stepOf (size overlap : Nat) : Nat := max 1 (size - overlap)

theorem stepOf_pos (size overlap : Nat) : 0 < stepOf size overlap :=
  le_max_left 1 _

/-- The `while idx < len(tokens)` loop of `chunk_text`: collect
`tokens[idx : idx+size]` windows, advancing by `stepOf size overlap`,
breaking on an empty window. -/
def buildWindows (tokens : List Nat) (size overlap : Nat) (idx : Nat) :
    List (List Nat) :=
  if h : idx < tokens.length then
    if ((tokens.drop idx).take size).isEmpty then []
    else ((tokens.drop idx).take size) ::
      buildWindows tokens size overlap (idx + stepOf size overlap)
  else []
termination_by tokens.length - idx
decreasing_by
  have := stepOf_pos size overlap
  omega

/-- The tail-merge step of `chunk_text`: if there are at least two windows
and the last is shorter than `min_tail_tokens`, extend the penultimate
window with it and drop it. -/
def tailMerge (ws : List (List Nat)) (minTail : Nat) : List (List Nat) :=
  if 2 ≤ ws.length ∧ (ws.getLastD []).length < minTail then
    ws.dropLast.dropLast ++ [ws.dropLast.getLastD [] ++ ws.getLastD []]
  else ws

/-- `chunk_text` at the token level: empty sequence ↦ no chunks, short
sequence ↦ a single chunk, otherwise windowing plus tail-merge. -/
def chunkTokens (tokens : List Nat) (size overlap minTail : Nat) :
    List (List Nat) :=
  if tokens.isEmpty then []
  else if tokens.length ≤ size then [tokens]
  else tailMerge (buildWindows tokens size overlap 0) minTail

/-- `chunk_text(text, size, overlap, min_tail_tokens)`, parametrised over the
external tokenizer. -/
def chunk_text (enc : String → List Nat) (dec : List Nat → String)
    (text : String) (size overlap minTail : Nat) : List String :=
  (chunkTokens (enc text) size overlap minTail).map dec

/-! ### Python string primitives (ASCII semantics)

`\s` / `str.split()` / `str.strip()` whitespace is ` \t\n\r\x0b\x0c`;
`\w` is alphanumeric or underscore; `\d` is an ASCII digit. -/

def pyIsSpace (c : Char) : Bool :=
  c == ' ' || c == '\t' || c == '\n' || c == '\r' || c == '\x0b' || c == '\x0c'

def isWordCharPy (c : Char) : Bool := c.isAlphanum || c == '_'

/-- Remove a trailing whitespace run. -/
def dropTrailingWs : List Char → List Char
  | [] => []
  | c :: cs =>
    let r := dropTrailingWs cs
    if r.isEmpty && pyIsSpace c then [] else c :: r

/-- `str.strip()`: remove leading and trailing whitespace. -/
def pyStrip (l : List Char) : List Char :=
  dropTrailingWs (l.dropWhile pyIsSpace)

theorem length_dropWhile_le' {α : Type} (p : α → Bool) (l : List α) :
    (l.dropWhile p).length ≤ l.length := by
  induction l with
  | nil => simp [List.dropWhile]
  | cons c cs ih =>
    simp only [List.dropWhile]
    split
    · exact Nat.le_succ_of_le ih
    · simp

/-- `re.sub(r"\s+", " ", ·)`: replace every maximal whitespace run by a
single space. -/
def collapseWs : List Char → List Char
  | [] => []
  | c :: cs =>
    if pyIsSpace c then ' ' :: collapseWs (cs.dropWhile pyIsSpace)
    else c :: collapseWs cs
termination_by l => l.length
decreasing_by
  · have := length_dropWhile_le' pyIsSpace cs
    simp only [List.length_cons]
    omega
  · simp

/-- `re.sub(r"\s+", " ", text).strip()` — the whitespace-normalisation tail
of `clean_wikipedia_garbage`. -/
def cleanupWs (l : List Char) : List Char := pyStrip (collapseWs l)

/-- Case-insensitive character comparison (patterns are ASCII). -/
def lowerEq (a b : Char) : Bool := a.toLower == b.toLower

/-- Match `pat` case-insensitively at the head of `l`; on success return the
rest of `l`. -/
def dropPreCI : List Char → List Char → Option (List Char)
  | l, [] => some l
  | [], _ :: _ => none
  | c :: cs, p :: ps => if lowerEq c p then dropPreCI cs ps else none

def hasPreCI (l pat : List Char) : Bool := (dropPreCI l pat).isSome

/-- Case-insensitive substring search (`re.search` of a literal pattern). -/
def hasSubCI : List Char → List Char → Bool
  | [], pat => pat.isEmpty
  | c :: cs, pat => hasPreCI (c :: cs) pat || hasSubCI cs pat

/-- Case-sensitive substring containment (Python `in`). -/
def hasPre : List Char → List Char → Bool
  | _, [] => true
  | [], _ :: _ => false
  | c :: cs, p :: ps => c == p && hasPre cs ps

def hasSub : List Char → List Char → Bool
  | [], pat => pat.isEmpty
  | c :: cs, pat => hasPre (c :: cs) pat || hasSub cs pat

/-- `Jump to\s*:\s*navigation` matched at the head of `l`. -/
def jumpToNavAt (l : List Char) : Bool :=
  match dropPreCI l "jump to".data with
  | none => false
  | some r1 =>
    match r1.dropWhile pyIsSpace with
    | ':' :: r2 => hasPreCI (r2.dropWhile pyIsSpace) "navigation".data
    | _ => false

/-- `re.search` of a head-anchored matcher: try it at every position. -/
def scanAny (p : List Char → Bool) : List Char → Bool
  | [] => p []
  | c :: cs => p (c :: cs) || scanAny p cs

/-! ### `clean_wikipedia_garbage` (lines 27–60) -/

/-- The `garbage_triggers` alternation, searched case-insensitively anywhere
in the text (`trigger_regex.search`). -/
def garbageTrigger (l : List Char) : Bool :=
  hasSubCI l "this article has multiple issues".data ||
  hasSubCI l "please help improve it".data ||
  hasSubCI l "please help improve this article".data ||
  hasSubCI l "discuss these issues on the talk page".data ||
  scanAny jumpToNavAt l ||
  hasSubCI l "edit links".data ||
  hasSubCI l "about wikipedia".data ||
  hasSubCI l "this page was last edited".data ||
  hasSubCI l "hidden categories".data ||
  hasSubCI l "articles needing additional references".data ||
  hasSubCI l "statements consisting only of original research".data ||
  hasSubCI l "verifying the claims made and adding inline citations".data ||
  hasSubCI l "lead section does not adequately summarize".data ||
  hasSubCI l "article possibly contains original research".data

/-- `\(\s*hide\s*\)` matched at the head of `l`; on success return the rest. -/
def hideMatchAt : List Char → Option (List Char)
  | [] => none
  | c :: rest =>
    if c = '(' then
      match dropPreCI (rest.dropWhile pyIsSpace) "hide".data with
      | none => none
      | some r2 =>
        match r2.dropWhile pyIsSpace with
        | ')' :: r3 => some r3
        | _ => none
    else none

theorem dropPreCI_length : ∀ (l pat r : List Char),
    dropPreCI l pat = some r → r.length ≤ l.length := by
  intro l pat
  induction pat generalizing l with
  | nil => intro r h; simp [dropPreCI] at h; simp [h]
  | cons p ps ih =>
    intro r h
    match l with
    | [] => simp [dropPreCI] at h
    | c :: cs =>
      simp only [dropPreCI] at h
      split at h
      · exact Nat.le_succ_of_le (ih cs r h)
      · exact absurd h (by simp)

theorem hideMatchAt_length (l r : List Char) (h : hideMatchAt l = some r) :
    r.length < l.length := by
  match l with
  | [] => simp [hideMatchAt] at h
  | c :: rest =>
    simp only [hideMatchAt] at h
    split at h
    case isTrue =>
      split at h
      · exact absurd h (by simp)
      · rename_i r2 hdrop
        have h2 : r2.length ≤ rest.length :=
          le_trans (dropPreCI_length _ _ _ hdrop) (length_dropWhile_le' _ _)
        split at h
        · rename_i r3 hr3
          have h4 : r = r3 := by exact (Option.some.injEq _ _).mp h.symm
          subst h4
          have h3 : r.length + 1 ≤ r2.length := by
            have hlen := congrArg List.length hr3
            have := length_dropWhile_le' pyIsSpace r2
            simp only [List.length_cons] at hlen
            omega
          simp only [List.length_cons]
          omega
        · exact absurd h (by simp)
    case isFalse => exact absurd h (by simp)

/-- `re.sub(r"\(\s*hide\s*\)", "", ·)`: delete every (leftmost,
non-overlapping) match. -/
def remHide : List Char → List Char
  | [] => []
  | c :: cs =>
    match h : hideMatchAt (c :: cs) with
    | some rest => remHide rest
    | none => c :: remHide cs
termination_by l => l.length
decreasing_by
  · exact hideMatchAt_length _ _ h
  · simp

/-- `.*?\)` with `.` not matching a newline: scan to the first `)` on the
current line; on success return the rest. -/
def scanToParen : List Char → Option (List Char)
  | [] => none
  | c :: cs =>
    if c = ')' then some cs
    else if c = '\n' then none
    else scanToParen cs

theorem scanToParen_length (l r : List Char) (h : scanToParen l = some r) :
    r.length < l.length := by
  induction l with
  | nil => simp [scanToParen] at h
  | cons c cs ih =>
    simp only [scanToParen] at h
    split at h
    · have : r = cs := (Option.some.injEq _ _).mp h.symm
      subst this; simp
    · split at h
      · exact absurd h (by simp)
      · exact Nat.lt_succ_of_lt (ih h)

/-- `\(\s*Learn how and when.*?\)` matched at the head of `l`. -/
def learnMatchAt : List Char → Option (List Char)
  | [] => none
  | c :: rest =>
    if c = '(' then
      match dropPreCI (rest.dropWhile pyIsSpace) "learn how and when".data with
      | none => none
      | some r2 => scanToParen r2
    else none

theorem learnMatchAt_length (l r : List Char) (h : learnMatchAt l = some r) :
    r.length < l.length := by
  match l with
  | [] => simp [learnMatchAt] at h
  | c :: rest =>
    simp only [learnMatchAt] at h
    split at h
    case isTrue =>
      split at h
      · exact absurd h (by simp)
      · rename_i r2 hdrop
        have h2 : r2.length ≤ rest.length :=
          le_trans (dropPreCI_length _ _ _ hdrop) (length_dropWhile_le' _ _)
        have h3 := scanToParen_length _ _ h
        simp only [List.length_cons]
        omega
    case isFalse => exact absurd h (by simp)

/-- `re.sub(r"\(\s*Learn how and when.*?\)", "", ·)`. -/
def remLearn : List Char → List Char
  | [] => []
  | c :: cs =>
    match h : learnMatchAt (c :: cs) with
    | some rest => remLearn rest
    | none => c :: remLearn cs
termination_by l => l.length
decreasing_by
  · exact learnMatchAt_length _ _ h
  · simp

/-- `\[\d+\]` matched at the head of `l`. -/
def fnMatchAt : List Char → Option (List Char)
  | [] => none
  | c :: rest =>
    if c = '[' then
      if (rest.takeWhile Char.isDigit).isEmpty then none
      else
        match rest.dropWhile Char.isDigit with
        | ']' :: r => some r
        | _ => none
    else none

theorem fnMatchAt_length (l r : List Char) (h : fnMatchAt l = some r) :
    r.length < l.length := by
  match l with
  | [] => simp [fnMatchAt] at h
  | c :: rest =>
    simp only [fnMatchAt] at h
    split at h
    case isTrue =>
      split at h
      · exact absurd h (by simp)
      · split at h
        · rename_i r2 hdrop
          have h4 : r = r2 := (Option.some.injEq _ _).mp h.symm
          subst h4
          have hlen := congrArg List.length hdrop
          have := length_dropWhile_le' Char.isDigit rest
          simp only [List.length_cons] at hlen ⊢
          omega
        · exact absurd h (by simp)
    case isFalse => exact absurd h (by simp)

/-- `re.sub(r"\[\d+\]", "", ·)` — numeric footnote-marker removal (used on
both content text and heading text). -/
def remFn : List Char → List Char
  | [] => []
  | c :: cs =>
    match h : fnMatchAt (c :: cs) with
    | some rest => remFn rest
    | none => c :: remFn cs
termination_by l => l.length
decreasing_by
  · exact fnMatchAt_length _ _ h
  · simp

/-- Does the whole list match `\(\s*edit\s*\)`? -/
def editParenExact (l : List Char) : Bool :=
  match l with
  | [] => false
  | c :: rest =>
    if c = '(' then
      match dropPreCI (rest.dropWhile pyIsSpace) "edit".data with
      | none => false
      | some r2 => r2.dropWhile pyIsSpace == [')']
    else false

/-- `re.sub(r"\(\s*edit\s*\)$", "", ·)`: drop the longest suffix matching
`\(\s*edit\s*\)` (the leftmost match of the end-anchored pattern). -/
def stripEditSuffix : List Char → List Char
  | [] => []
  | c :: cs => if editParenExact (c :: cs) then [] else c :: stripEditSuffix cs

/-- Heading-text cleaning (lines 141–143): footnote markers out, strip,
trailing `(edit)` out, strip.  (`element.get_text` is the external parser
collaborator; its output is the `String` this receives.) -/
def cleanHeaderText (s : String) : String :=
  String.mk (pyStrip (stripEditSuffix (pyStrip (remFn s.data))))

/-- `^pat\b` (case-insensitive), i.e. `pat` at the start of the string
followed by a word boundary. -/
def headStartCI (l : List Char) (pat : String) : Bool :=
  match dropPreCI l pat.data with
  | none => false
  | some [] => true
  | some (c :: _) => !isWordCharPy c

/-- The `skip_header_patterns` alternation (`skip_header_re.search`);
every alternative is `^`-anchored, so search ≡ match at position 0. -/
def skipHeaderMatch (s : String) : Bool :=
  headStartCI s.data "references" || headStartCI s.data "external links" ||
  headStartCI s.data "see also" || headStartCI s.data "notes" ||
  headStartCI s.data "further reading" || headStartCI s.data "bibliography"

/-- The substitution pipeline of `clean_wikipedia_garbage` (lines 50–53):
hide-markers, Learn-how parentheticals and footnote markers removed, then
whitespace collapsed and stripped. -/
def cleanupText (l : List Char) : List Char :=
  cleanupWs (remFn (remLearn (remHide l)))

/-- `clean_wikipedia_garbage` (lines 27–60), returning `none` for a dropped
block. -/
def clean_wikipedia_garbage (s : String) : Option String :=
  if s.isEmpty then none
  else if garbageTrigger s.data then none
  else if hasSub (cleanupText s.data) "中文".data
      && hasSub (cleanupText s.data) "English".data
      && (cleanupText s.data).length < 100 then none
  else if (cleanupText s.data).length < 5 then none
  else some (String.mk (cleanupText s.data))

/-! ### `is_semantic_block` (lines 62–86) -/

/-- `str.split()`: whitespace-separated words, no empties. -/
def pyWordsAux : List Char → List Char → List (List Char)
  | acc, [] => if acc.isEmpty then [] else [acc.reverse]
  | acc, c :: cs =>
    if pyIsSpace c then
      if acc.isEmpty then pyWordsAux [] cs else acc.reverse :: pyWordsAux [] cs
    else pyWordsAux (c :: acc) cs

def pyWords (l : List Char) : List (List Char) := pyWordsAux [] l

/-- `\d+\.\d+\b` matched at the head of `l` (the leading `\b` is checked by
the caller via the previous character). -/
def dddMatchAt (l : List Char) : Option (List Char) :=
  if (l.takeWhile Char.isDigit).isEmpty then none
  else
    match l.dropWhile Char.isDigit with
    | '.' :: r2 =>
      if (r2.takeWhile Char.isDigit).isEmpty then none
      else
        match r2.dropWhile Char.isDigit with
        | [] => some []
        | c :: r3 => if isWordCharPy c then none else some (c :: r3)
    | _ => none

theorem dddMatchAt_length (l r : List Char) (h : dddMatchAt l = some r) :
    r.length < l.length := by
  simp only [dddMatchAt] at h
  split at h
  · exact absurd h (by simp)
  · rename_i hne
    split at h
    · rename_i r2 hdrop
      have hlen := congrArg List.length hdrop
      have hd1 := length_dropWhile_le' Char.isDigit l
      split at h
      · exact absurd h (by simp)
      · rename_i hne2
        have hd2 := length_dropWhile_le' Char.isDigit r2
        split at h
        · rename_i hdrop2
          have h4 : r = [] := (Option.some.injEq _ _).mp h.symm
          subst h4
          simp only [List.length_cons] at hlen
          simp only [List.length_nil]
          have : l.length ≠ 0 := by
            intro h0
            rw [List.length_eq_zero] at h0
            subst h0
            simp [List.takeWhile] at hne
          omega
        · rename_i c r3 hdrop2
          split at h
          · exact absurd h (by simp)
          · have h4 : r = c :: r3 := (Option.some.injEq _ _).mp h.symm
            subst h4
            have hlen2 := congrArg List.length hdrop2
            simp only [List.length_cons] at hlen hlen2 ⊢
            omega
    · exact absurd h (by simp)

/-- Count the (leftmost, non-overlapping) matches of `\b\d+\.\d+\b`
(`re.findall`).  `atB` records whether the previous character allows a word
boundary before the current position (true at the string start or after a
non-word character). -/
def countDDD : List Char → Bool → Nat
  | [], _ => 0
  | c :: cs, atB =>
    match h : (if atB then dddMatchAt (c :: cs) else none) with
    | some rest => 1 + countDDD rest false
    | none => countDDD cs (!isWordCharPy c)
termination_by l _ => l.length
decreasing_by
  · split at h
    · exact dddMatchAt_length _ _ h
    · exact absurd h (by simp)
  · simp

/-- `is_semantic_block` (lines 62–86).  The two ratio tests
(`alpha/len < 0.55`, `short/words > 0.35`) are modelled as exact rational
comparisons by cross-multiplication. -/
def is_semantic_block (s : String) : Bool :=
  let l := s.data
  let words := pyWords l
  if words.length < minWordsPerBlock then false
  else if 3 ≤ countDDD l true && words.length < 50 then false
  else
    let alpha := (l.filter Char.isAlpha).length
    if alpha * 100 < 55 * max l.length 1 then false
    else
      let short := (words.filter (fun w => w.length ≤ 2)).length
      if short * 100 > 35 * max words.length 1 then false
      else true

/-! ### Structural parser: `parse_html_with_bs4` (lines 112–174)

BeautifulSoup (parsing, the `kill_selectors` subtree removal, and
`get_text`) is the external parser collaborator; per the spec it yields an
ordered sequence of (tag-kind, visible-text) nodes, which `Node` models.
The traversal, heading-state and suppression logic below mirror the loop
body of lines 137–172. -/

inductive Node where
  | heading (level : Nat) (text : String)
  | content (text : String)
deriving DecidableEq

/-- A `{"context": …, "text": …}` dict — a raw section (pre-merge) or a
merged section. -/
structure Sec where
  context : String
  text : String
deriving DecidableEq

/-- The `headers` dict, keyed by heading level: index `i : Fin 6` holds the
entry for level `i+1` (`none` = key absent). -/
abbrev Headers := Fin 6 → Option String

def emptyHeaders : Headers := fun _ => none

/-- `headers[level] = txt` followed by `headers.pop(l)` for
`l = level+1, …, 6`. -/
def setHeader (hs : Headers) (level : Nat) (txt : String) : Headers :=
  fun i =>
    if (i : Nat) + 1 = level then some txt
    else if level < (i : Nat) + 1 then none
    else hs i

/-- `any(h == "__SKIP__" for h in headers.values())`. -/
def anySkip (hs : Headers) : Bool :=
  decide (∃ i : Fin 6, hs i = some "__SKIP__")

/-- `[headers[k] for k in sorted(headers.keys()) if headers[k] != "__SKIP__"]`. -/
def activeHeaders (hs : Headers) : List String :=
  ((List.finRange 6).filterMap hs).filter (· ≠ "__SKIP__")

/-- The `context_prefix` of an emitted raw section. -/
def contextOf (hs : Headers) : String :=
  let a := activeHeaders hs
  if a.isEmpty then "Summary" else String.intercalate " > " a

/-- One iteration of the `for element in soup.find_all(...)` loop:
state = (headers, raw_sections so far). -/
def parseStep (st : Headers × List Sec) (n : Node) : Headers × List Sec :=
  match n with
  | .heading level txt =>
    let ht := cleanHeaderText txt
    if ht ≠ "" && skipHeaderMatch ht then (setHeader st.1 level "__SKIP__", st.2)
    else if ht ≠ "" then (setHeader st.1 level ht, st.2)
    else st
  | .content txt =>
    if anySkip st.1 then st
    else
      match clean_wikipedia_garbage txt with
      | none => st
      | some ct =>
        if is_semantic_block ct then (st.1, st.2 ++ [⟨contextOf st.1, ct⟩])
        else st

/-- `parse_html_with_bs4` over the node sequence the external parser
yields: fold the loop body from the empty heading state. -/
def parseHtmlNodes (nodes : List Node) : List Sec :=
  (nodes.foldl parseStep (emptyHeaders, [])).2

/-! ### Section merger: `merge_small_sections` (lines 176–230) -/

/-- `current["text"].strip().endswith(":")`. -/
def endsWithColon (s : String) : Bool :=
  (pyStrip s.data).getLast? == some ':'

/-- The loop body of `merge_small_sections`:
state = (merged so far, current, current_tokens).  Note the `< 30`
thresholds of `is_transition` / `is_tiny` are hard-coded in the source
(lines 197–198), independent of `min_tokens`. -/
def mergeStep (enc : String → List Nat) (minTokens maxTokens : Nat)
    (st : List Sec × Sec × Nat) (nxt : Sec) : List Sec × Sec × Nat :=
  let merged := st.1
  let current := st.2.1
  let currentTokens := st.2.2
  let nxtTokens := (enc nxt.text).length
  let sameContext := current.context == nxt.context
  let isTransition := endsWithColon current.text && currentTokens < 30
  let isTiny := currentTokens < 30
  let shouldMerge :=
    if sameContext then
      currentTokens < minTokens || currentTokens + nxtTokens ≤ maxTokens
    else if isTransition || isTiny then currentTokens + nxtTokens ≤ maxTokens
    else false
  if shouldMerge then
    (merged,
     ⟨if sameContext then current.context else nxt.context,
      current.text ++ "\n" ++ nxt.text⟩,
     currentTokens + nxtTokens)
  else (merged ++ [current], nxt, nxtTokens)

/-- `merge_small_sections(sections, min_tokens, max_tokens)`, parametrised
over the external tokenizer's `encode`. -/
def merge_small_sections (enc : String → List Nat) (sections : List Sec)
    (minTokens maxTokens : Nat) : List Sec :=
  match sections with
  | [] => []
  | s0 :: rest =>
    let fin := rest.foldl (mergeStep enc minTokens maxTokens)
      ([], s0, (enc s0.text).length)
    fin.1 ++ [fin.2.1]

/-! ### Record assembler: `process_record` (lines 232–293) -/

/-- An input record (one JSON line).  `example_id` is modelled
already-stringified (the code applies `str(...)`); `document_text` and
`query` are part of the input interface but, as the theorems show, only
`text` is consulted for the body. -/
structure Record where
  example_id : Option String
  source : Option String
  text : Option String
  document_text : Option String
  query : Option String
deriving DecidableEq

/-- doc_id derivation (lines 233–238): explicit id, else md5 of a truthy
`source`, else the positional fallback `str(order_base)`. -/
def docId (md5h : String → String) (r : Record) (orderBase : Nat) : String :=
  match r.example_id with
  | some e => e
  | none =>
    match r.source with
    | some s => if s = "" then toString orderBase else md5h s
    | none => toString orderBase

def parserTag : String := "bs4_structure_chunker_v5_context_injected"

def injectContext : Bool := true

/-- The `metadata` dict of an output chunk record.  `parserTag` models the
`"parser"` key. -/
structure ChunkMeta where
  doc_id : String
  chunk_id : Nat
  section_path : String
  tokens : Nat
  parserTag : String
deriving DecidableEq

/-- One output chunk record. -/
structure ChunkRecord where
  text : String
  original_text : String
  metadata : ChunkMeta
deriving DecidableEq

/-- The inner `for chunk in chunks` loop body (lines 265–291):
state = (results so far, offset). -/
def assembleChunk (enc : String → List Nat) (doc_id context_path : String)
    (st : List ChunkRecord × Nat) (chunk : String) : List ChunkRecord × Nat :=
  let token_count := (enc chunk).length
  let text_for_embedding :=
    if injectContext then "Context: " ++ context_path ++ "\nContent: " ++ chunk
    else chunk
  (st.1 ++ [{ text := text_for_embedding, original_text := chunk,
              metadata := { doc_id := doc_id, chunk_id := st.2,
                            section_path := context_path,
                            tokens := token_count, parserTag := parserTag } }],
   st.2 + 1)

/-- `process_record(obj, order_base)`, parametrised over the external
collaborators: `parse` (BeautifulSoup: markup → ordered node sequence),
`enc`/`dec` (the tokenizer) and `md5h` (hashlib md5 hex digest). -/
def process_record (parse : String → List Node) (enc : String → List Nat)
    (dec : List Nat → String) (md5h : String → String)
    (r : Record) (orderBase : Nat) : List ChunkRecord :=
  let doc_id := docId md5h r orderBase
  let body := r.text.getD ""
  let raw_sections := parseHtmlNodes (parse body)
  if raw_sections.isEmpty then []
  else
    let merged_sections :=
      merge_small_sections enc raw_sections minMergeTokens maxChunkTokens
    (merged_sections.foldl
      (fun st sec =>
        (chunk_text enc dec sec.text maxChunkTokens chunkOverlap
            minTailTokens).foldl
          (assembleChunk enc doc_id sec.context) st)
      (([], 0) : List ChunkRecord × Nat)).1

/-! ### A concrete tokenizer instantiation for witnesses

A character-level codec: every character is one token (its code point).
It satisfies the reversibility contract the spec requires of the external
tokenizer (`charEnc (charDec w) = w` for windows of valid ids). -/

def charEnc (s : String) : List Nat := s.data.map Char.toNat

def charDec (l : List Nat) : String := String.mk (l.map Char.ofNat)

/-- A concrete instantiation of the external markup-parser collaborator
used in counterexamples: every document is one paragraph node holding the
whole body. -/
def toyParse : String → List Node := fun s => [Node.content s]

/-- A body that passes the semantic filter unchanged. -/
def toyDoc : String := "The quick brown fox jumps over the lazy dog today"

/-- The source's tail-merge condition (line 106): at least two windows and
an undersized final window. -/
def tailMergeCond (ws : List (List Nat)) (minTail : Nat) : Prop :=
  2 ≤ ws.length ∧ (ws.getLastD []).length < minTail

instance (ws : List (List Nat)) (minTail : Nat) :
    Decidable (tailMergeCond ws minTail) := by
  unfold tailMergeCond; infer_instance

/-- The newline-join of a list of strings (the spec's phrasing of content
preservation; `"\n"` is the separator `merge_small_sections` inserts). -/
def joinNl : List String → String
  | [] => ""
  | [s] => s
  | s :: r :: rest => s ++ "\n" ++ joinNl (r :: rest)

/-! ## Lemmas about the token windower -/

theorem stepOf_le_size (size overlap : Nat) (h : 1 ≤ size) :
    stepOf size overlap ≤ size := by
  unfold stepOf; omega

theorem buildWindows_eq_pos (tokens : List Nat) (size overlap idx : Nat)
    (h : idx < tokens.length) :
    buildWindows tokens size overlap idx =
      if ((tokens.drop idx).take size).isEmpty then []
      else ((tokens.drop idx).take size) ::
        buildWindows tokens size overlap (idx + stepOf size overlap) := by
  rw [buildWindows, dif_pos h]

theorem buildWindows_eq_neg (tokens : List Nat) (size overlap idx : Nat)
    (h : ¬ idx < tokens.length) :
    buildWindows tokens size overlap idx = [] := by
  rw [buildWindows, dif_neg h]

theorem buildWindows_cover (n size overlap : Nat) (hsize : 1 ≤ size) :
    ∀ (fuel idx i : Nat), n - idx ≤ fuel → idx ≤ i → i < n →
      ∃ w ∈ buildWindows (List.range n) size overlap idx, i ∈ w := by
  intro fuel
  induction fuel with
  | zero => intro idx i hf hle hlt; omega
  | succ f ih =>
    intro idx i hf hle hlt
    have hidx : idx < n := lt_of_le_of_lt hle hlt
    have hlen : (List.range n).length = n := List.length_range n
    rw [buildWindows_eq_pos _ _ _ _ (by rw [hlen]; exact hidx)]
    have hwlen : (((List.range n).drop idx).take size).length = min size (n - idx) := by
      simp [List.length_take, List.length_drop]
    have hwne : (((List.range n).drop idx).take size).isEmpty = false := by
      rw [List.isEmpty_eq_false_iff_exists_mem]
      have h0 : 0 < min size (n - idx) := by omega
      exact ⟨_, List.getElem_mem (hwlen ▸ h0)⟩
    rw [hwne]
    simp only [Bool.false_eq_true, if_false]
    by_cases hcase : i < idx + size
    · refine ⟨((List.range n).drop idx).take size, List.mem_cons_self _ _, ?_⟩
      have hj : i - idx < (((List.range n).drop idx).take size).length := by omega
      have : (((List.range n).drop idx).take size)[i - idx] = i := by
        rw [List.getElem_take, List.getElem_drop, List.getElem_range]
        omega
      exact this ▸ List.getElem_mem hj
    · have hstep := stepOf_pos size overlap
      have hstep2 := stepOf_le_size size overlap hsize
      obtain ⟨w, hw, hiw⟩ := ih (idx + stepOf size overlap) i (by omega) (by omega) hlt
      exact ⟨w, List.mem_cons_of_mem _ hw, hiw⟩

/-- Decomposition of a ≥2-element list used by the tail-merge step. -/
theorem two_split (ws : List (List Nat)) (h : 2 ≤ ws.length) :
    ws = ws.dropLast.dropLast ++ [ws.dropLast.getLastD [], ws.getLastD []] := by
  have h1 : ws ≠ [] := by intro he; subst he; simp at h
  have h2 : ws.dropLast ≠ [] := by
    intro he
    have := congrArg List.length he
    simp [List.length_dropLast] at this
    omega
  have e1 : ws.dropLast ++ [ws.getLastD []] = ws := by
    have := List.dropLast_append_getLast h1
    rwa [List.getLastD_eq_getLast? , List.getLast?_eq_getLast ws h1, Option.getD_some]
  have e2 : ws.dropLast.dropLast ++ [ws.dropLast.getLastD []] = ws.dropLast := by
    have := List.dropLast_append_getLast h2
    rwa [List.getLastD_eq_getLast?, List.getLast?_eq_getLast _ h2, Option.getD_some]
  calc ws = ws.dropLast ++ [ws.getLastD []] := e1.symm
    _ = (ws.dropLast.dropLast ++ [ws.dropLast.getLastD []]) ++ [ws.getLastD []] := by
          rw [e2]
    _ = ws.dropLast.dropLast ++ [ws.dropLast.getLastD [], ws.getLastD []] := by
          simp

/-- Tail-merge preserves the flattened token content. -/
theorem tailMerge_flatten (ws : List (List Nat)) (minTail : Nat) :
    (tailMerge ws minTail).flatten = ws.flatten := by
  unfold tailMerge
  split
  · rename_i hcond
    conv_rhs => rw [two_split ws hcond.1]
    simp
  · rfl

theorem tailMerge_ne_nil (ws : List (List Nat)) (minTail : Nat) (h : ws ≠ []) :
    tailMerge ws minTail ≠ [] := by
  unfold tailMerge
  split
  · simp
  · exact h

/-- Every window produced by the while-loop is a `take size` slice. -/
theorem buildWindows_length_le (tokens : List Nat) (size overlap : Nat) :
    ∀ (fuel idx : Nat), tokens.length - idx ≤ fuel →
      ∀ w ∈ buildWindows tokens size overlap idx, w.length ≤ size := by
  intro fuel
  induction fuel with
  | zero =>
    intro idx hf w hw
    rw [buildWindows_eq_neg _ _ _ _ (by omega)] at hw
    simp at hw
  | succ f ih =>
    intro idx hf w hw
    by_cases hidx : idx < tokens.length
    · rw [buildWindows_eq_pos _ _ _ _ hidx] at hw
      split at hw
      · simp at hw
      · rcases List.mem_cons.mp hw with h | h
        · subst h
          simpa using List.length_take_le size ((tokens.drop idx))
        · have hstep := stepOf_pos size overlap
          exact ih (idx + stepOf size overlap) (by omega) w h
    · rw [buildWindows_eq_neg _ _ _ _ hidx] at hw
      simp at hw

/-- `chunkTokens` commutes with mapping over token values (windowing is
purely positional). -/
theorem buildWindows_map (g : Nat → Nat) (l : List Nat) (size overlap : Nat) :
    ∀ (fuel idx : Nat), l.length - idx ≤ fuel →
      buildWindows (l.map g) size overlap idx =
        (buildWindows l size overlap idx).map (List.map g) := by
  intro fuel
  induction fuel with
  | zero =>
    intro idx hf
    rw [buildWindows_eq_neg (l.map g) _ _ _ (by simp; omega),
      buildWindows_eq_neg l _ _ _ (by omega)]
    rfl
  | succ f ih =>
    intro idx hf
    by_cases hidx : idx < l.length
    · rw [buildWindows_eq_pos (l.map g) _ _ _ (by simpa using hidx),
        buildWindows_eq_pos l _ _ _ hidx]
      have hw : ((l.map g).drop idx).take size = (((l.drop idx).take size).map g) := by
        simp
      rw [hw]
      have hemp : (((l.drop idx).take size).map g).isEmpty =
          ((l.drop idx).take size).isEmpty := by
        cases (l.drop idx).take size <;> rfl
      rw [hemp]
      split
      · rfl
      · have hstep := stepOf_pos size overlap
        rw [ih (idx + stepOf size overlap) (by omega)]
        rfl
    · rw [buildWindows_eq_neg (l.map g) _ _ _ (by simp; omega),
        buildWindows_eq_neg l _ _ _ (by omega)]
      rfl

theorem getLastD_map_nil (g : List Nat → List Nat) (hg : g [] = [])
    (l : List (List Nat)) : (l.map g).getLastD [] = g (l.getLastD []) := by
  have key : ∀ (l : List (List Nat)) (d : List Nat),
      (l.map g).getLastD (g d) = g (l.getLastD d) := by
    intro l
    induction l with
    | nil => intro d; rfl
    | cons a t ih => intro d; rw [List.map_cons, List.getLastD_cons, List.getLastD_cons, ih]
  have := key l []
  rwa [hg] at this

theorem tailMerge_map (g : Nat → Nat) (ws : List (List Nat)) (minTail : Nat) :
    tailMerge (ws.map (List.map g)) minTail = (tailMerge ws minTail).map (List.map g) := by
  unfold tailMerge
  have hlast := getLastD_map_nil (List.map g) rfl ws
  have hlast2 := getLastD_map_nil (List.map g) rfl ws.dropLast
  have hcond : (2 ≤ (ws.map (List.map g)).length ∧
      ((ws.map (List.map g)).getLastD []).length < minTail) ↔
      (2 ≤ ws.length ∧ (ws.getLastD []).length < minTail) := by
    rw [List.length_map, hlast, List.length_map]
  split
  · rename_i h
    rw [if_pos (hcond.mp h)]
    simp only [← List.map_dropLast]
    rw [hlast, hlast2]
    simp
  · rename_i h
    rw [if_neg (fun hc => h (hcond.mpr hc))]

theorem chunkTokens_map (g : Nat → Nat) (tokens : List Nat)
    (size overlap minTail : Nat) :
    chunkTokens (tokens.map g) size overlap minTail =
      (chunkTokens tokens size overlap minTail).map (List.map g) := by
  unfold chunkTokens
  have hemp : (tokens.map g).isEmpty = tokens.isEmpty := by cases tokens <;> rfl
  rw [hemp, List.length_map]
  split
  · rfl
  · split
    · rfl
    · rw [buildWindows_map g tokens size overlap tokens.length 0 (by omega),
        tailMerge_map]

theorem range_map_getD (tokens : List Nat) :
    (List.range tokens.length).map (fun i => tokens.getD i 0) = tokens := by
  apply List.ext_getElem
  · simp
  · intro i h1 h2
    simp only [List.getElem_map, List.getElem_range]
    rw [List.getD_eq_getElem tokens 0 h2]

/-- Claim C1 — **Coverage**.  For a non-empty token sequence longer than
`max_chunk_tokens` (`size`), the windows emitted by `chunk_text` (tail-merge
included) cover every index of the token sequence: instantiated on the
sequence of indices `List.range n`, every index lies in an emitted window;
and on an arbitrary token sequence of length `n` the emitted windows are
exactly the index windows with each index replaced by the token at that
index. -/
theorem chunk_text_covers_all_indices
    (n size overlap minTail : Nat) (hsize : 1 ≤ size) (hlong : size < n) :
    (∀ i, i < n → ∃ w ∈ chunkTokens (List.range n) size overlap minTail, i ∈ w)
    ∧ ∀ (tokens : List Nat), tokens.length = n →
        chunkTokens tokens size overlap minTail =
          (chunkTokens (List.range n) size overlap minTail).map
            (List.map fun i => tokens.getD i 0) := by
  constructor
  · intro i hi
    have hne : (List.range n).isEmpty = false := by
      rw [List.isEmpty_eq_false_iff_exists_mem]
      exact ⟨i, List.mem_range.mpr hi⟩
    have hlen : (List.range n).length = n := List.length_range n
    unfold chunkTokens
    rw [hne, if_neg (by simp), if_neg (by rw [hlen]; omega)]
    obtain ⟨w, hw, hiw⟩ :=
      buildWindows_cover n size overlap hsize n 0 i (by omega) (by omega) hi
    have : i ∈ (tailMerge (buildWindows (List.range n) size overlap 0) minTail).flatten := by
      rw [tailMerge_flatten]
      exact List.mem_flatten.mpr ⟨w, hw, hiw⟩
    exact List.mem_flatten.mp this
  · intro tokens hlen
    subst hlen
    conv_lhs => rw [← range_map_getD tokens]
    exact chunkTokens_map _ _ _ _ _

/-- Witness for C1 at a concrete input. -/
theorem chunk_text_covers_all_indices_witness :
    (1 ≤ 4 ∧ 4 < 10) ∧
    ((∀ i, i < 10 → ∃ w ∈ Chunking.chunkTokens (List.range 10) 4 1 2, i ∈ w)
     ∧ ∀ (tokens : List Nat), tokens.length = 10 →
        Chunking.chunkTokens tokens 4 1 2 =
          (Chunking.chunkTokens (List.range 10) 4 1 2).map
            (List.map fun i => tokens.getD i 0)) :=
  ⟨⟨by omega, by omega⟩,
   chunk_text_covers_all_indices 10 4 1 2 (by omega) (by omega)⟩

/-- Claim C2 — **Size bound**.  Every chunk except possibly the last has at
most `size` tokens, and when the tail-merge step does not fire every chunk
(the last included) has at most `size` tokens; hence only the tail-merged
chunk may exceed the bound. -/
theorem chunk_size_bound (tokens : List Nat) (size overlap minTail : Nat) :
    ((∀ w ∈ (chunkTokens tokens size overlap minTail).dropLast, w.length ≤ size)
    ∧ (¬ tailMergeCond (buildWindows tokens size overlap 0) minTail →
        ∀ w ∈ chunkTokens tokens size overlap minTail, w.length ≤ size))
    ∧ ∀ (enc : String → List Nat) (dec : List Nat → String) (text : String),
        enc text = tokens →
        (∀ w ∈ chunkTokens tokens size overlap minTail, enc (dec w) = w) →
        ∀ c ∈ (chunk_text enc dec text size overlap minTail).dropLast,
          (enc c).length ≤ size := by
  have hpre : ∀ w ∈ buildWindows tokens size overlap 0, w.length ≤ size :=
    buildWindows_length_le tokens size overlap tokens.length 0 (by omega)
  have hdrop : ∀ w ∈ (chunkTokens tokens size overlap minTail).dropLast,
      w.length ≤ size := by
    unfold chunkTokens
    split
    · simp
    · split
      · simp
      · intro w hw
        unfold tailMerge at hw
        split at hw
        · rw [List.dropLast_concat] at hw
          exact hpre w (List.Sublist.mem
            (List.Sublist.mem hw (List.dropLast_sublist _))
            (List.dropLast_sublist _))
        · exact hpre w (List.Sublist.mem hw (List.dropLast_sublist _))
  have hfull : ¬ tailMergeCond (buildWindows tokens size overlap 0) minTail →
      ∀ w ∈ chunkTokens tokens size overlap minTail, w.length ≤ size := by
    unfold chunkTokens
    split
    · simp
    · split
      · rename_i hne hshort
        intro _ w hw
        rcases List.mem_cons.mp hw with h | h
        · subst h; omega
        · simp at h
      · intro hcond w hw
        unfold tailMerge at hw
        rw [if_neg (fun hc => hcond ⟨hc.1, hc.2⟩)] at hw
        exact hpre w hw
  refine ⟨⟨hdrop, hfull⟩, ?_⟩
  intro enc dec text htext hrt c hc
  unfold chunk_text at hc
  rw [htext, ← List.map_dropLast] at hc
  obtain ⟨w, hw, hdw⟩ := List.mem_map.mp hc
  have hwmem : w ∈ chunkTokens tokens size overlap minTail :=
    List.Sublist.mem hw (List.dropLast_sublist _)
  rw [← hdw, hrt w hwmem]
  exact hdrop w hw

/-- Witness for C2 at a concrete input (no tail merge fires:
`chunkTokens [0,1,2,3,4] 2 0 1 = [[0,1],[2,3],[4]]`, last window length 1,
`min_tail = 1`), with the tokenizer instantiated by the character codec. -/
theorem chunk_size_bound_witness :
    (∀ w ∈ (chunkTokens [0, 1, 2, 3, 4] 2 0 1).dropLast, w.length ≤ 2)
    ∧ (∀ w ∈ chunkTokens [0, 1, 2, 3, 4] 2 0 1, w.length ≤ 2)
    ∧ ∀ c ∈ (chunk_text charEnc charDec (charDec [0, 1, 2, 3, 4]) 2 0 1).dropLast,
        (charEnc c).length ≤ 2 := by
  have h := chunk_size_bound [0, 1, 2, 3, 4] 2 0 1
  have hbw : buildWindows [0, 1, 2, 3, 4] 2 0 0 = [[0, 1], [2, 3], [4]] := by
    simp [buildWindows, stepOf]
  have hck : chunkTokens [0, 1, 2, 3, 4] 2 0 1 = [[0, 1], [2, 3], [4]] := by
    rw [chunkTokens, if_neg (by simp), if_neg (by simp), hbw]
    decide
  refine ⟨h.1.1, h.1.2 (by rw [tailMergeCond, hbw]; decide), ?_⟩
  refine h.2 charEnc charDec (charDec [0, 1, 2, 3, 4]) (by decide) ?_
  rw [hck]
  decide

/-! ## Section merger: claims C3 and C10 -/

set_option maxRecDepth 100000 in
/-- Claim C3 counterexample.  A current block of 40 tokens (below the
`min_merge_tokens` default of 50, at or above the hard-coded 30), a
different context, and a combined length well under `max_chunk_tokens`:
the claim's condition for a cross-context merge holds, yet
`merge_small_sections` leaves the two candidates unmerged, because the
source compares against the literal 30 (lines 197–198), not
`min_merge_tokens`. -/
theorem merge_min_tokens_counterexample :
    (⟨"A", String.mk (List.replicate 40 'x')⟩ : Sec).context ≠
        (⟨"B", String.mk (List.replicate 20 'y')⟩ : Sec).context
    ∧ (charEnc (String.mk (List.replicate 40 'x'))).length < minMergeTokens
    ∧ (charEnc (String.mk (List.replicate 40 'x'))).length +
        (charEnc (String.mk (List.replicate 20 'y'))).length ≤ maxChunkTokens
    ∧ ¬ (charEnc (String.mk (List.replicate 40 'x'))).length < 30
    ∧ merge_small_sections charEnc
        [⟨"A", String.mk (List.replicate 40 'x')⟩,
         ⟨"B", String.mk (List.replicate 20 'y')⟩] minMergeTokens maxChunkTokens
      = [⟨"A", String.mk (List.replicate 40 'x')⟩,
         ⟨"B", String.mk (List.replicate 20 'y')⟩] := by
  refine ⟨by decide, by decide, by decide, by decide, by decide⟩

/-- Claim C3 (amended) — cross-context merge rule.  When the accumulator's
context differs from the next candidate's, the step merges exactly when the
tracked token count is below the hard-coded 30 (the `ends with ':'`
disjunct is absorbed, both `is_transition` and `is_tiny` using 30) and the
combined count is at most `max_tokens`; a merge adopts the next candidate's
context.  `min_tokens` plays no role in the cross-context case. -/
theorem merge_cross_context_rule (enc : String → List Nat) (minT maxT : Nat)
    (merged : List Sec) (current : Sec) (curTok : Nat) (nxt : Sec)
    (hctx : current.context ≠ nxt.context) :
    mergeStep enc minT maxT (merged, current, curTok) nxt =
      if curTok < 30 ∧ curTok + (enc nxt.text).length ≤ maxT then
        (merged, ⟨nxt.context, current.text ++ "\n" ++ nxt.text⟩,
          curTok + (enc nxt.text).length)
      else (merged ++ [current], nxt, (enc nxt.text).length) := by
  have hbeq : (current.context == nxt.context) = false := by
    simp [hctx]
  by_cases h30 : curTok < 30
  · by_cases hsum : curTok + (enc nxt.text).length ≤ maxT
    · rw [if_pos ⟨h30, hsum⟩]
      simp [mergeStep, hbeq, h30, hsum]
    · rw [if_neg (fun hc => hsum hc.2)]
      simp [mergeStep, hbeq, h30, hsum]
  · rw [if_neg (fun hc => h30 hc.1)]
    simp [mergeStep, hbeq, h30]

/-- Witness for the amended C3 at a concrete input (a 10-token current
block with a different context merges and adopts the next context). -/
theorem merge_cross_context_rule_witness :
    (("A" : String) ≠ "B")
    ∧ mergeStep charEnc 50 512 ([], ⟨"A", "aaaaaaaaaa"⟩, 10) ⟨"B", "bb"⟩ =
        (if 10 < 30 ∧ 10 + (charEnc "bb").length ≤ 512 then
          ([], ⟨"B", "aaaaaaaaaa" ++ "\n" ++ "bb"⟩, 10 + (charEnc "bb").length)
        else ([] ++ [⟨"A", "aaaaaaaaaa"⟩], ⟨"B", "bb"⟩, (charEnc "bb").length)) :=
  ⟨by decide, merge_cross_context_rule charEnc 50 512 [] ⟨"A", "aaaaaaaaaa"⟩ 10
    ⟨"B", "bb"⟩ (by decide)⟩

theorem joinNl_cons (a : String) (L : List String) (h : L ≠ []) :
    joinNl (a :: L) = a ++ "\n" ++ joinNl L := by
  match L with
  | [] => exact absurd rfl h
  | b :: L' => rfl

theorem joinNl_append_merge (A : List String) (x y : String) (B : List String) :
    joinNl (A ++ (x ++ "\n" ++ y) :: B) = joinNl (A ++ x :: y :: B) := by
  induction A with
  | nil =>
    cases B with
    | nil => simp [joinNl]
    | cons b B' =>
      rw [List.nil_append, List.nil_append,
        joinNl_cons (x ++ "\n" ++ y) (b :: B') (by simp),
        joinNl_cons x (y :: b :: B') (by simp),
        joinNl_cons y (b :: B') (by simp)]
      simp [String.append_assoc]
  | cons a A' ih =>
    rw [List.cons_append, List.cons_append,
      joinNl_cons _ _ (by simp), joinNl_cons _ _ (by simp), ih]

/-- Either the step merges `nxt` into the accumulator (newline-joined text)
or it emits the accumulator and restarts from `nxt`. -/
theorem mergeStep_shape (enc : String → List Nat) (minT maxT : Nat)
    (m : List Sec) (c : Sec) (t : Nat) (n : Sec) :
    (∃ C k, mergeStep enc minT maxT (m, c, t) n =
        (m, ⟨C, c.text ++ "\n" ++ n.text⟩, k))
    ∨ mergeStep enc minT maxT (m, c, t) n = (m ++ [c], n, (enc n.text).length) := by
  unfold mergeStep
  dsimp only
  split_ifs <;> first | exact Or.inl ⟨_, _, rfl⟩ | exact Or.inr rfl

theorem merge_fold_invariant (enc : String → List Nat) (minT maxT : Nat) :
    ∀ (rest merged : List Sec) (current : Sec) (curTok : Nat),
      joinNl ((((rest.foldl (mergeStep enc minT maxT) (merged, current, curTok)).1
          ++ [(rest.foldl (mergeStep enc minT maxT) (merged, current, curTok)).2.1]).map
            Sec.text))
        = joinNl ((merged ++ [current]).map Sec.text ++ rest.map Sec.text) := by
  intro rest
  induction rest with
  | nil => intro merged current curTok; simp
  | cons n rest ih =>
    intro merged current curTok
    rw [List.foldl_cons]
    rcases mergeStep_shape enc minT maxT merged current curTok n with ⟨C, k, heq⟩ | heq
    · rw [heq, ih]
      have key := joinNl_append_merge (merged.map Sec.text) current.text n.text
        (rest.map Sec.text)
      simp only [List.map_append, List.map_cons, List.map_nil] at key ⊢
      simpa [List.append_assoc] using key
    · rw [heq, ih]
      simp [List.map_append, List.append_assoc]

/-- Claim C10 — the merger loses no content: the newline-join of the merged
sections' texts equals the newline-join of the input sections' texts. -/
theorem merger_preserves_content (enc : String → List Nat) (minT maxT : Nat)
    (sections : List Sec) (h : sections ≠ []) :
    joinNl ((merge_small_sections enc sections minT maxT).map Sec.text)
      = joinNl (sections.map Sec.text) := by
  match sections with
  | s0 :: rest =>
    unfold merge_small_sections
    have key := merge_fold_invariant enc minT maxT rest [] s0 ((enc s0.text).length)
    simpa using key

/-- Witness for C10 at a concrete input. -/
theorem merger_preserves_content_witness :
    ([(⟨"A", "a"⟩ : Sec), ⟨"A", "b"⟩] ≠ [])
    ∧ joinNl ((merge_small_sections charEnc [⟨"A", "a"⟩, ⟨"A", "b"⟩] 50 512).map
        Sec.text)
      = joinNl (([(⟨"A", "a"⟩ : Sec), ⟨"A", "b"⟩]).map Sec.text) :=
  ⟨by simp, merger_preserves_content charEnc 50 512 _ (by simp)⟩

/-! ## Configuration handling: claim C6 -/

set_option maxRecDepth 10000 in
/-- Claim C6 counterexample.  `chunk_overlap = 5 ≥ max_chunk_tokens = 2` is
the configuration violation of the claim; nothing rejects it: the stride is
silently clamped to `max(1, 2-5) = 1` and `chunk_text` happily windows a
5-token document mid-processing. -/
theorem eager_rejection_counterexample :
    stepOf 2 5 = 1
    ∧ chunkTokens [0, 1, 2, 3, 4] 2 5 30 = [[0, 1], [1, 2], [2, 3], [3, 4, 4]] := by
  constructor
  · rfl
  · simp [chunkTokens, buildWindows, tailMerge, stepOf]

/-- Claim C6 (amended) — no eager rejection exists: under a violating
configuration (`overlap ≥ size`) the stride is silently repaired to 1 by
`step = max(1, size - overlap)` and `chunk_text` still emits chunks for
every non-empty input. -/
theorem config_violation_clamped (size overlap : Nat) (hviol : size ≤ overlap) :
    stepOf size overlap = 1
    ∧ ∀ (tokens : List Nat) (minTail : Nat), tokens ≠ [] → 1 ≤ size →
        chunkTokens tokens size overlap minTail ≠ [] := by
  constructor
  · unfold stepOf; omega
  · intro tokens minTail hne hsize
    unfold chunkTokens
    have hemp : tokens.isEmpty = false := by
      cases tokens
      · exact absurd rfl hne
      · rfl
    rw [hemp]
    simp only [Bool.false_eq_true, if_false]
    split
    · simp
    · apply tailMerge_ne_nil
      have hlen : 0 < tokens.length := List.length_pos.mpr hne
      rw [buildWindows_eq_pos _ _ _ _ hlen]
      have hwne : ((tokens.drop 0).take size).isEmpty = false := by
        rw [List.isEmpty_eq_false_iff_exists_mem]
        have hl : ((tokens.drop 0).take size).length = min size tokens.length := by
          simp
        have h0 : 0 < min size tokens.length := by omega
        exact ⟨_, List.getElem_mem (hl ▸ h0)⟩
      rw [hwne]
      simp

/-- Witness for the amended C6 at a concrete input. -/
theorem config_violation_clamped_witness :
    (2 ≤ 5) ∧ ([0, 1, 2] ≠ ([] : List Nat)) ∧ (1 ≤ 2)
    ∧ stepOf 2 5 = 1 ∧ chunkTokens [0, 1, 2] 2 5 30 ≠ [] := by
  have h := config_violation_clamped 2 5 (by omega)
  exact ⟨by omega, by simp, by omega, h.1, h.2 [0, 1, 2] 30 (by simp) (by omega)⟩

/-! ## Record assembly: claims C7 and C9 -/

/-- Claim C7 — **Determinism**.  The whole per-record pipeline is a pure
function of the input record, the order base and the (fixed) collaborators:
two runs on equal inputs produce identical chunk records, `doc_id`
(including the md5-derived branch), `chunk_id`s, embedding texts and token
counts included. -/
theorem process_record_deterministic (parse : String → List Node)
    (enc : String → List Nat) (dec : List Nat → String) (md5h : String → String)
    (r r' : Record) (base base' : Nat) (hr : r = r') (hb : base = base') :
    process_record parse enc dec md5h r base
      = process_record parse enc dec md5h r' base' := by
  subst hr; subst hb; rfl

/-- Witness for C7 at a concrete input. -/
theorem process_record_deterministic_witness :
    ((⟨none, some "src", some "body", none, none⟩ : Record)
        = ⟨none, some "src", some "body", none, none⟩)
    ∧ ((3 : Nat) = 3)
    ∧ process_record toyParse charEnc charDec (fun s => s)
        ⟨none, some "src", some "body", none, none⟩ 3
      = process_record toyParse charEnc charDec (fun s => s)
        ⟨none, some "src", some "body", none, none⟩ 3 :=
  ⟨rfl, rfl, process_record_deterministic toyParse charEnc charDec (fun s => s)
    _ _ 3 3 rfl rfl⟩

/-- Claim C9 (amended) — `document_text` is never consulted: the output of
`process_record` is unchanged if the `document_text` field is dropped (the
body comes from `obj.get("text") or ""` alone, line 240). -/
theorem document_text_unused (parse : String → List Node)
    (enc : String → List Nat) (dec : List Nat → String) (md5h : String → String)
    (r : Record) (base : Nat) :
    process_record parse enc dec md5h r base
      = process_record parse enc dec md5h
          { r with document_text := none } base := by
  cases r; rfl

/-! ## Structural parser: claims C4 and C5 -/

theorem setHeader_at (hs : Headers) (lvl : Nat) (txt : String) (j : Fin 6)
    (h : (j : Nat) + 1 = lvl) : setHeader hs lvl txt j = some txt := by
  unfold setHeader; rw [if_pos h]

theorem setHeader_above (hs : Headers) (lvl : Nat) (txt : String) (j : Fin 6)
    (h : lvl < (j : Nat) + 1) : setHeader hs lvl txt j = none := by
  unfold setHeader; rw [if_neg (by omega), if_pos h]

theorem setHeader_below (hs : Headers) (lvl : Nat) (txt : String) (j : Fin 6)
    (h : (j : Nat) + 1 < lvl) : setHeader hs lvl txt j = hs j := by
  unfold setHeader; rw [if_neg (by omega), if_neg (by omega)]

/-- A heading node never emits a raw section. -/
theorem parseStep_heading_sections (st : Headers × List Sec) (lvl : Nat)
    (t : String) : (parseStep st (Node.heading lvl t)).2 = st.2 := by
  simp only [parseStep]
  split_ifs <;> rfl

/-- A heading node leaves strictly shallower levels untouched. -/
theorem parseStep_heading_below (st : Headers × List Sec) (lvl : Nat)
    (t : String) (j : Fin 6) (h : (j : Nat) + 1 < lvl) :
    (parseStep st (Node.heading lvl t)).1 j = st.1 j := by
  simp only [parseStep]
  by_cases h1 : (decide (cleanHeaderText t ≠ "")
      && skipHeaderMatch (cleanHeaderText t)) = true
  · rw [if_pos h1]
    exact setHeader_below _ _ _ _ h
  · rw [if_neg h1]
    by_cases h2 : cleanHeaderText t ≠ ""
    · rw [if_pos h2]
      exact setHeader_below _ _ _ _ h
    · rw [if_neg h2]

/-- A recorded heading clears all strictly deeper levels. -/
theorem parseStep_heading_above (st : Headers × List Sec) (lvl : Nat)
    (t : String) (j : Fin 6) (h : lvl < (j : Nat) + 1)
    (hne : cleanHeaderText t ≠ "") :
    (parseStep st (Node.heading lvl t)).1 j = none := by
  simp only [parseStep]
  by_cases h1 : (decide (cleanHeaderText t ≠ "")
      && skipHeaderMatch (cleanHeaderText t)) = true
  · rw [if_pos h1]
    exact setHeader_above _ _ _ _ h
  · rw [if_neg h1, if_pos hne]
    exact setHeader_above _ _ _ _ h

/-- A non-suppressed, non-empty heading is recorded at its own level. -/
theorem parseStep_heading_at (st : Headers × List Sec) (lvl : Nat)
    (t : String) (j : Fin 6) (heq : (j : Nat) + 1 = lvl)
    (hne : cleanHeaderText t ≠ "")
    (hskip : skipHeaderMatch (cleanHeaderText t) = false) :
    (parseStep st (Node.heading lvl t)).1 j = some (cleanHeaderText t) := by
  simp only [parseStep]
  rw [if_neg (by simp [hskip]), if_pos hne]
  exact setHeader_at _ _ _ _ heq

theorem setHeader_cases (hs : Headers) (lvl : Nat) (txt : String) (j : Fin 6) :
    setHeader hs lvl txt j = some txt ∨ setHeader hs lvl txt j = none
    ∨ setHeader hs lvl txt j = hs j := by
  by_cases h1 : (j : Nat) + 1 = lvl
  · exact Or.inl (setHeader_at hs lvl txt j h1)
  · by_cases h2 : lvl < (j : Nat) + 1
    · exact Or.inr (Or.inl (setHeader_above hs lvl txt j h2))
    · exact Or.inr (Or.inr (setHeader_below hs lvl txt j (by omega)))

/-- After a heading node an entry is the heading's cleaned text, the
suppression sentinel, cleared, or untouched. -/
theorem parseStep_heading_cases (st : Headers × List Sec) (lvl : Nat)
    (t : String) (j : Fin 6) :
    (parseStep st (Node.heading lvl t)).1 j = some (cleanHeaderText t)
    ∨ (parseStep st (Node.heading lvl t)).1 j = some "__SKIP__"
    ∨ (parseStep st (Node.heading lvl t)).1 j = none
    ∨ (parseStep st (Node.heading lvl t)).1 j = st.1 j := by
  simp only [parseStep]
  by_cases h1 : (decide (cleanHeaderText t ≠ "")
      && skipHeaderMatch (cleanHeaderText t)) = true
  · rw [if_pos h1]
    rcases setHeader_cases st.1 lvl "__SKIP__" j with h | h | h
    · exact Or.inr (Or.inl h)
    · exact Or.inr (Or.inr (Or.inl h))
    · exact Or.inr (Or.inr (Or.inr h))
  · rw [if_neg h1]
    by_cases h2 : cleanHeaderText t ≠ ""
    · rw [if_pos h2]
      rcases setHeader_cases st.1 lvl (cleanHeaderText t) j with h | h | h
      · exact Or.inl h
      · exact Or.inr (Or.inr (Or.inl h))
      · exact Or.inr (Or.inr (Or.inr h))
    · rw [if_neg h2]
      exact Or.inr (Or.inr (Or.inr rfl))

/-- While any level holds the suppression sentinel, a content node is
skipped entirely. -/
theorem parseStep_content_skip (st : Headers × List Sec) (txt : String)
    (hskip : anySkip st.1 = true) : parseStep st (Node.content txt) = st := by
  simp only [parseStep]
  rw [if_pos hskip]

/-- Through a stretch of nodes containing only content nodes and headings
strictly deeper than `L`, a suppression sentinel at level `L` persists and
no raw section is emitted. -/
theorem skip_region_no_emit (L : Nat) (hL1 : 1 ≤ L) (hL6 : L ≤ 6) :
    ∀ (mid : List Node) (st : Headers × List Sec),
      (∀ n ∈ mid, ∀ lvl t, n = Node.heading lvl t → L < lvl) →
      st.1 ⟨L - 1, by omega⟩ = some "__SKIP__" →
      (List.foldl parseStep st mid).2 = st.2
      ∧ (List.foldl parseStep st mid).1 ⟨L - 1, by omega⟩ = some "__SKIP__" := by
  intro mid
  induction mid with
  | nil => intro st _ hskip; exact ⟨rfl, hskip⟩
  | cons n mid ih =>
    intro st hmid hskip
    have hstep : (parseStep st n).2 = st.2
        ∧ (parseStep st n).1 ⟨L - 1, by omega⟩ = some "__SKIP__" := by
      cases n with
      | heading lvl t =>
        have hlvl : L < lvl := hmid _ (List.mem_cons_self _ _) lvl t rfl
        refine ⟨parseStep_heading_sections st lvl t, ?_⟩
        rw [parseStep_heading_below st lvl t ⟨L - 1, by omega⟩
          (by show L - 1 + 1 < lvl; omega)]
        exact hskip
      | content txt =>
        have hany : anySkip st.1 = true := by
          unfold anySkip
          exact decide_eq_true ⟨_, hskip⟩
        rw [parseStep_content_skip st txt hany]
        exact ⟨rfl, hskip⟩
    rw [List.foldl_cons]
    obtain ⟨h2, h1⟩ := hstep
    obtain ⟨ih2, ih1⟩ := ih (parseStep st n)
      (fun n' hn' => hmid n' (List.mem_cons_of_mem _ hn')) h1
    exact ⟨ih2.trans h2, ih1⟩

/-- Claim C4 — **Suppression scoping**.  If a heading at level `L` has a
cleaned text matching a suppression pattern, then up to the next heading of
level ≤ `L` (i.e. through any stretch `mid` whose headings are all deeper
than `L`) no content node is ever emitted as a raw section: the parse
result of the document extended by the suppressed region equals the parse
result without it. -/
theorem suppressed_region_never_emitted (L : Nat) (hL1 : 1 ≤ L) (hL6 : L ≤ 6)
    (htext : String) (hne : cleanHeaderText htext ≠ "")
    (hskipmatch : skipHeaderMatch (cleanHeaderText htext) = true)
    (pre mid : List Node)
    (hmid : ∀ n ∈ mid, ∀ lvl t, n = Node.heading lvl t → L < lvl) :
    parseHtmlNodes (pre ++ Node.heading L htext :: mid)
      = parseHtmlNodes (pre ++ [Node.heading L htext]) := by
  unfold parseHtmlNodes
  have heq : pre ++ Node.heading L htext :: mid
      = (pre ++ [Node.heading L htext]) ++ mid := by simp
  rw [heq, List.foldl_append]
  have hskip : (List.foldl parseStep (emptyHeaders, [])
      (pre ++ [Node.heading L htext])).1 ⟨L - 1, by omega⟩ = some "__SKIP__" := by
    rw [List.foldl_append, List.foldl_cons, List.foldl_nil]
    simp only [parseStep]
    rw [if_pos (by simp [hne, hskipmatch])]
    exact setHeader_at _ _ _ _ (by show L - 1 + 1 = L; omega)
  exact (skip_region_no_emit L hL1 hL6 mid _ hmid hskip).1

/-- Witness for C4 at a concrete input: a level-2 "References" heading
suppresses a paragraph and a deeper level-3 subsection. -/
theorem suppressed_region_never_emitted_witness :
    ((1 : Nat) ≤ 2) ∧ ((2 : Nat) ≤ 6)
    ∧ cleanHeaderText "References" ≠ ""
    ∧ skipHeaderMatch (cleanHeaderText "References") = true
    ∧ parseHtmlNodes
        ([Node.heading 1 "Intro", Node.content Chunking.toyDoc]
          ++ Node.heading 2 "References"
            :: [Node.content Chunking.toyDoc, Node.heading 3 "Deep",
                Node.content Chunking.toyDoc])
      = parseHtmlNodes
          ([Node.heading 1 "Intro", Node.content Chunking.toyDoc]
            ++ [Node.heading 2 "References"]) := by
  have h1 : cleanHeaderText "References" = "References" := by
    simp [cleanHeaderText, remFn, fnMatchAt, pyStrip, dropTrailingWs,
      stripEditSuffix, editParenExact, dropPreCI, lowerEq, pyIsSpace]
  have h2 : skipHeaderMatch "References" = true := by decide
  refine ⟨by omega, by omega, by rw [h1]; decide, by rw [h1]; exact h2, ?_⟩
  exact suppressed_region_never_emitted 2 (by omega) (by omega) "References"
    (by rw [h1]; decide) (by rw [h1]; exact h2)
    [Node.heading 1 "Intro", Node.content toyDoc]
    [Node.content toyDoc, Node.heading 3 "Deep", Node.content toyDoc]
    (by
      intro n hn lvl t hnt
      subst hnt
      simp only [List.mem_cons, List.not_mem_nil, or_false] at hn
      rcases hn with h | h | h
      · exact Node.noConfusion h
      · injection h with h1 h2
        omega
      · exact Node.noConfusion h)

theorem mem_activeHeaders (hs : Headers) (x : String)
    (h : x ∈ activeHeaders hs) :
    (∃ j : Fin 6, hs j = some x) ∧ x ≠ "__SKIP__" := by
  unfold activeHeaders at h
  obtain ⟨hmem, hfil⟩ := List.mem_filter.mp h
  obtain ⟨j, _, hj2⟩ := List.mem_filterMap.mp hmem
  exact ⟨⟨j, hj2⟩, by simpa using hfil⟩

/-- Claim C5 — **Heading pruning**.  (1) Recording a heading at level `L`
clears every entry at a strictly deeper level.  (2) For the heading
sequence H1 → H2 → H3 → H2′ (H2′ firing: non-empty cleaned text, not a
suppression heading), the heading state active afterwards no longer
mentions H3's text, so no later context path contains it. -/
theorem heading_pruning :
    (∀ (hs : Headers) (L : Nat) (txt : String) (j : Fin 6),
      L < (j : Nat) + 1 → setHeader hs L txt j = none)
    ∧ ∀ (a b c b2 : String),
        cleanHeaderText b2 ≠ "" →
        skipHeaderMatch (cleanHeaderText b2) = false →
        cleanHeaderText c ≠ cleanHeaderText a →
        cleanHeaderText c ≠ cleanHeaderText b2 →
        cleanHeaderText c ∉ activeHeaders
          (List.foldl parseStep (emptyHeaders, [])
            [Node.heading 1 a, Node.heading 2 b, Node.heading 3 c,
             Node.heading 2 b2]).1 := by
  constructor
  · intro hs L txt j hj
    exact setHeader_above hs L txt j hj
  · intro a b c b2 hb2ne hb2skip hca hcb2 hmem
    obtain ⟨⟨j, hj⟩, hnskip⟩ := mem_activeHeaders _ _ hmem
    simp only [List.foldl_cons, List.foldl_nil] at hj
    set s1 := parseStep (emptyHeaders, ([] : List Sec)) (Node.heading 1 a)
      with hs1
    set s2 := parseStep s1 (Node.heading 2 b) with hs2
    set s3 := parseStep s2 (Node.heading 3 c) with hs3
    by_cases hj0 : (j : Nat) = 0
    · rw [parseStep_heading_below s3 2 b2 j (by omega), hs3,
        parseStep_heading_below s2 3 c j (by omega), hs2,
        parseStep_heading_below s1 2 b j (by omega), hs1] at hj
      rcases parseStep_heading_cases (emptyHeaders, ([] : List Sec)) 1 a j
        with h | h | h | h <;> rw [h] at hj
      · injection hj with hinj
        exact hca hinj.symm
      · injection hj with hinj
        exact hnskip hinj.symm
      · exact Option.noConfusion hj
      · exact Option.noConfusion hj
    · by_cases hj1 : (j : Nat) = 1
      · rw [parseStep_heading_at s3 2 b2 j (by omega) hb2ne hb2skip] at hj
        injection hj with hinj
        exact hcb2 hinj.symm
      · rw [parseStep_heading_above s3 2 b2 j (by omega) hb2ne] at hj
        exact Option.noConfusion hj

/-- Witness for C5 at concrete headings. -/
theorem heading_pruning_witness :
    (cleanHeaderText "H2 again" ≠ ""
      ∧ skipHeaderMatch (cleanHeaderText "H2 again") = false
      ∧ cleanHeaderText "H3" ≠ cleanHeaderText "H1"
      ∧ cleanHeaderText "H3" ≠ cleanHeaderText "H2 again")
    ∧ cleanHeaderText "H3" ∉ activeHeaders
        (List.foldl parseStep (emptyHeaders, [])
          [Node.heading 1 "H1", Node.heading 2 "H2", Node.heading 3 "H3",
           Node.heading 2 "H2 again"]).1 := by
  have e1 : cleanHeaderText "H1" = "H1" := by
    simp [cleanHeaderText, remFn, fnMatchAt, pyStrip, dropTrailingWs,
      stripEditSuffix, editParenExact, dropPreCI, lowerEq, pyIsSpace]
  have e2 : cleanHeaderText "H3" = "H3" := by
    simp [cleanHeaderText, remFn, fnMatchAt, pyStrip, dropTrailingWs,
      stripEditSuffix, editParenExact, dropPreCI, lowerEq, pyIsSpace]
  have e3 : cleanHeaderText "H2 again" = "H2 again" := by
    simp [cleanHeaderText, remFn, fnMatchAt, pyStrip, dropTrailingWs,
      stripEditSuffix, editParenExact, dropPreCI, lowerEq, pyIsSpace]
  refine ⟨⟨by rw [e3]; decide, by rw [e3]; decide,
    by rw [e2, e1]; decide, by rw [e2, e3]; decide⟩, ?_⟩
  exact heading_pruning.2 "H1" "H2" "H3" "H2 again"
    (by rw [e3]; decide) (by rw [e3]; decide)
    (by rw [e2, e1]; decide) (by rw [e2, e3]; decide)

/-! ## Semantic filter idempotence: claim C8 -/

/-- Whitespace-normal form: every whitespace character is a plain space and
no two adjacent characters are both whitespace. -/
def wsNormal : List Char → Bool
  | [] => true
  | [c] => !pyIsSpace c || c == ' '
  | c1 :: c2 :: rest =>
    (!pyIsSpace c1 || c1 == ' ') && !(pyIsSpace c1 && pyIsSpace c2)
      && wsNormal (c2 :: rest)

theorem wsNormal_tail (c : Char) (cs : List Char)
    (h : wsNormal (c :: cs) = true) : wsNormal cs = true := by
  match cs with
  | [] => rfl
  | c2 :: rest =>
    simp only [wsNormal, Bool.and_eq_true] at h
    exact h.2

theorem dropWhile_head_not (p : Char → Bool) (m : List Char) (d : Char)
    (ds : List Char) (h : m.dropWhile p = d :: ds) : p d = false := by
  induction m with
  | nil => simp [List.dropWhile] at h
  | cons x xs ih =>
    simp only [List.dropWhile] at h
    split at h
    · exact ih h
    · rename_i hx
      cases h
      simpa using hx

theorem collapseWs_nil : collapseWs [] = [] := by rw [collapseWs]

theorem collapseWs_cons_not_ws (d : Char) (ds : List Char)
    (h : pyIsSpace d = false) :
    collapseWs (d :: ds) = d :: collapseWs ds := by
  rw [collapseWs, if_neg (by simp [h])]

theorem collapseWs_cons_ws (d : Char) (ds : List Char)
    (h : pyIsSpace d = true) :
    collapseWs (d :: ds) = ' ' :: collapseWs (ds.dropWhile pyIsSpace) := by
  rw [collapseWs, if_pos h]

/-- The output of whitespace collapsing is whitespace-normal. -/
theorem collapseWs_wsNormal : ∀ (fuel : Nat) (l : List Char),
    l.length ≤ fuel → wsNormal (collapseWs l) = true := by
  intro fuel
  induction fuel with
  | zero =>
    intro l hl
    have hnil : l = [] := by
      cases l
      · rfl
      · simp at hl
    subst hnil
    rw [collapseWs_nil]
    rfl
  | succ f ih =>
    intro l hl
    match l with
    | [] => rw [collapseWs_nil]; rfl
    | c :: cs =>
      by_cases hc : pyIsSpace c = true
      · rw [collapseWs_cons_ws c cs hc]
        have hdw := length_dropWhile_le' pyIsSpace cs
        have hX := ih (cs.dropWhile pyIsSpace) (by simp at hl; omega)
        match hcs : cs.dropWhile pyIsSpace with
        | [] =>
          rw [collapseWs_nil]
          rfl
        | d :: ds =>
          have hd : pyIsSpace d = false := dropWhile_head_not _ _ _ _ hcs
          rw [hcs] at hX
          rw [collapseWs_cons_not_ws d ds hd] at hX ⊢
          simp only [wsNormal, Bool.and_eq_true]
          refine ⟨⟨by simp, by simp [hd]⟩, ?_⟩
          exact hX
      · have hc' : pyIsSpace c = false := by simpa using hc
        rw [collapseWs_cons_not_ws c cs hc']
        have hX := ih cs (by simp at hl; omega)
        match hcs : collapseWs cs with
        | [] => simp [wsNormal, hc']
        | d :: ds =>
          rw [hcs] at hX
          simp only [wsNormal, Bool.and_eq_true]
          exact ⟨⟨by simp [hc'], by simp [hc']⟩, hX⟩

/-- Whitespace collapsing fixes whitespace-normal strings. -/
theorem collapseWs_eq_self : ∀ (l : List Char),
    wsNormal l = true → collapseWs l = l := by
  intro l
  induction l with
  | nil => intro _; exact collapseWs_nil
  | cons c cs ih =>
    intro h
    have htail := wsNormal_tail c cs h
    by_cases hc : pyIsSpace c = true
    · have hsp : c = ' ' := by
        match cs with
        | [] =>
          simp only [wsNormal, Bool.or_eq_true] at h
          rcases h with h | h
          · rw [hc] at h; simp at h
          · simpa using h
        | c2 :: rest =>
          simp only [wsNormal, Bool.and_eq_true, Bool.or_eq_true] at h
          rcases h.1.1 with h' | h'
          · rw [hc] at h'; simp at h'
          · simpa using h'
      have hdw : cs.dropWhile pyIsSpace = cs := by
        match cs with
        | [] => rfl
        | c2 :: rest =>
          simp only [wsNormal, Bool.and_eq_true] at h
          have hdisj : pyIsSpace c = false ∨ pyIsSpace c2 = false := by
            have := h.1.2
            simpa using this
          have hc2 : pyIsSpace c2 = false := by
            rcases hdisj with h' | h'
            · rw [hc] at h'
              simp at h'
            · exact h'
          simp [List.dropWhile, hc2]
      rw [collapseWs_cons_ws c cs hc, hdw, ih htail, hsp]
    · have hc' : pyIsSpace c = false := by simpa using hc
      rw [collapseWs_cons_not_ws c cs hc', ih htail]

/-- `wsNormal` holds of every suffix. -/
theorem wsNormal_suffix : ∀ (l l2 : List Char),
    l2 <:+ l → wsNormal l = true → wsNormal l2 = true := by
  intro l
  induction l with
  | nil =>
    intro l2 hsuf h
    rw [List.suffix_nil.mp hsuf]
    rfl
  | cons c cs ih =>
    intro l2 hsuf h
    rcases List.suffix_cons_iff.mp hsuf with h' | h'
    · rw [h']; exact h
    · exact ih l2 h' (wsNormal_tail c cs h)

theorem wsNormal_dropWhile (p : Char → Bool) (l : List Char)
    (h : wsNormal l = true) : wsNormal (l.dropWhile p) = true :=
  wsNormal_suffix l _ (List.dropWhile_suffix p) h

/-- `dropTrailingWs` preserves the head of a list. -/
theorem dropTrailingWs_head (m : List Char) (x : Char) (xs : List Char)
    (h : dropTrailingWs m = x :: xs) :
    ∃ t, m = x :: t ∧ xs = dropTrailingWs t := by
  match m with
  | [] => simp [dropTrailingWs] at h
  | d :: ds =>
    simp only [dropTrailingWs] at h
    split at h
    · exact absurd h (by simp)
    · cases h
      exact ⟨ds, rfl, rfl⟩

theorem wsNormal_dropTrailingWs : ∀ (l : List Char),
    wsNormal l = true → wsNormal (dropTrailingWs l) = true := by
  intro l
  induction l with
  | nil => intro _; rfl
  | cons c cs ih =>
    intro h
    have htail := wsNormal_tail c cs h
    have hr := ih htail
    simp only [dropTrailingWs]
    split
    · rfl
    · match hres : dropTrailingWs cs with
      | [] =>
        match cs with
        | [] => exact h
        | c2 :: rest =>
          simp only [wsNormal, Bool.and_eq_true] at h
          simp only [wsNormal]
          exact h.1.1
      | x :: xs =>
        obtain ⟨t, hcs, hxs⟩ := dropTrailingWs_head cs x xs hres
        subst hcs
        rw [hres] at hr
        simp only [wsNormal, Bool.and_eq_true] at h ⊢
        exact ⟨⟨h.1.1, h.1.2⟩, hr⟩

theorem dropTrailingWs_idem : ∀ (l : List Char),
    dropTrailingWs (dropTrailingWs l) = dropTrailingWs l := by
  intro l
  induction l with
  | nil => rfl
  | cons c cs ih =>
    simp only [dropTrailingWs]
    split
    · rfl
    · rename_i hcond
      simp only [dropTrailingWs, ih]
      rw [if_neg hcond]

/-- The head of `dropTrailingWs (dropWhile pyIsSpace y)` is never
whitespace. -/
theorem cleanup_head_not_ws (y : List Char) (x : Char) (xs : List Char)
    (h : dropTrailingWs (y.dropWhile pyIsSpace) = x :: xs) :
    pyIsSpace x = false := by
  obtain ⟨t, ht, _⟩ := dropTrailingWs_head _ _ _ h
  exact dropWhile_head_not pyIsSpace y x t ht

theorem cleanupWs_wsNormal (l : List Char) : wsNormal (cleanupWs l) = true := by
  unfold cleanupWs pyStrip
  exact wsNormal_dropTrailingWs _
    (wsNormal_dropWhile _ _ (collapseWs_wsNormal l.length l le_rfl))

/-- The whitespace-normalisation tail of the filter is idempotent. -/
theorem cleanupWs_idem (l : List Char) : cleanupWs (cleanupWs l) = cleanupWs l := by
  have hN : wsNormal (cleanupWs l) = true := cleanupWs_wsNormal l
  have hdrop : (cleanupWs l).dropWhile pyIsSpace = cleanupWs l := by
    unfold cleanupWs pyStrip
    match hm : dropTrailingWs ((collapseWs l).dropWhile pyIsSpace) with
    | [] => rfl
    | x :: xs =>
      have hx : pyIsSpace x = false := cleanup_head_not_ws (collapseWs l) x xs hm
      simp [List.dropWhile, hx]
  calc cleanupWs (cleanupWs l)
      = pyStrip (collapseWs (cleanupWs l)) := rfl
    _ = pyStrip (cleanupWs l) := by rw [collapseWs_eq_self _ hN]
    _ = dropTrailingWs ((cleanupWs l).dropWhile pyIsSpace) := rfl
    _ = dropTrailingWs (cleanupWs l) := by rw [hdrop]
    _ = cleanupWs l := dropTrailingWs_idem ((collapseWs l).dropWhile pyIsSpace)

/-- Inversion of a successful `clean_wikipedia_garbage`. -/
theorem clean_some_inv (t c : String)
    (h : clean_wikipedia_garbage t = some c) :
    c = String.mk (cleanupText t.data)
    ∧ (hasSub (cleanupText t.data) "中文".data
        && hasSub (cleanupText t.data) "English".data
        && decide ((cleanupText t.data).length < 100)) = false
    ∧ ¬ (cleanupText t.data).length < 5 := by
  unfold clean_wikipedia_garbage at h
  split_ifs at h with h1 h2 h3 h4
  refine ⟨((Option.some.injEq _ _).mp h).symm, ?_, h4⟩
  simpa using h3

/-- Claim C8 (amended) — conditional idempotence of the semantic filter.
If the accepted cleaned block `c` itself matches no garbage trigger and
contains no residual removable pattern (so the three substitution passes
fix it — hypotheses `hhide`, `hlearn`, `hfn`), then re-applying the filter
returns `c` unchanged and it is still accepted.  (The unconditional claim
is false: cleaning can *create* a trigger match or a removable pattern —
see the counterexample.) -/
theorem semantic_filter_idempotent (t c : String)
    (hc : clean_wikipedia_garbage t = some c)
    (hsem : is_semantic_block c = true)
    (htrig : garbageTrigger c.data = false)
    (hhide : remHide c.data = c.data)
    (hlearn : remLearn c.data = c.data)
    (hfn : remFn c.data = c.data) :
    clean_wikipedia_garbage c = some c ∧ is_semantic_block c = true := by
  obtain ⟨hceq, hcmn, hlen⟩ := clean_some_inv t c hc
  have hdata : c.data = cleanupText t.data := by rw [hceq]
  have hcut : cleanupText c.data = c.data := by
    unfold cleanupText
    rw [hhide, hlearn, hfn]
    rw [hdata]
    show cleanupWs (cleanupText t.data) = cleanupText t.data
    unfold cleanupText
    exact cleanupWs_idem _
  refine ⟨?_, hsem⟩
  have hne : c.isEmpty = false := by
    cases hbe : c.isEmpty
    · rfl
    · exfalso
      have hc0 : c = "" := (String.isEmpty_iff c).mp hbe
      have hd0 : c.data = [] := by rw [hc0]
      rw [hdata] at hd0
      have hlen0 : (cleanupText t.data).length = 0 := by rw [hd0]; rfl
      omega
  simp only [clean_wikipedia_garbage, hne, htrig, hcut, Bool.false_eq_true,
    if_false]
  rw [hdata]
  rw [hcmn]
  simp only [Bool.false_eq_true, if_false]
  rw [if_neg hlen, ← hdata]

set_option maxRecDepth 400000 in
/-- Witness for the amended C8 at a concrete block (already fully clean). -/
theorem semantic_filter_idempotent_witness :
    (clean_wikipedia_garbage
        "Cleaning keeps ordinary prose like this sentence fully intact here"
      = some "Cleaning keeps ordinary prose like this sentence fully intact here"
    ∧ is_semantic_block
        "Cleaning keeps ordinary prose like this sentence fully intact here"
      = true)
    ∧ clean_wikipedia_garbage
        "Cleaning keeps ordinary prose like this sentence fully intact here"
      = some "Cleaning keeps ordinary prose like this sentence fully intact here"
    ∧ is_semantic_block
        "Cleaning keeps ordinary prose like this sentence fully intact here"
      = true := by
  have h1 : clean_wikipedia_garbage
      "Cleaning keeps ordinary prose like this sentence fully intact here"
      = some "Cleaning keeps ordinary prose like this sentence fully intact here" := by
    simp [clean_wikipedia_garbage, garbageTrigger, hasSubCI, hasPreCI, dropPreCI,
      lowerEq, scanAny, jumpToNavAt, cleanupText, cleanupWs, remHide, remLearn,
      remFn, hideMatchAt, learnMatchAt, fnMatchAt, scanToParen, collapseWs,
      pyStrip, dropTrailingWs, pyIsSpace, hasSub, hasPre]
    decide
  have h2 : is_semantic_block
      "Cleaning keeps ordinary prose like this sentence fully intact here"
      = true := by
    simp [is_semantic_block, pyWords, pyWordsAux, countDDD, dddMatchAt,
      pyIsSpace, minWordsPerBlock, isWordCharPy]
  have h3 : remHide
      ("Cleaning keeps ordinary prose like this sentence fully intact here"
        : String).data
      = ("Cleaning keeps ordinary prose like this sentence fully intact here"
        : String).data := by
    simp [remHide, hideMatchAt, dropPreCI, lowerEq, pyIsSpace]
  have h4 : remLearn
      ("Cleaning keeps ordinary prose like this sentence fully intact here"
        : String).data
      = ("Cleaning keeps ordinary prose like this sentence fully intact here"
        : String).data := by
    simp [remLearn, learnMatchAt, scanToParen, dropPreCI, lowerEq, pyIsSpace]
  have h5 : remFn
      ("Cleaning keeps ordinary prose like this sentence fully intact here"
        : String).data
      = ("Cleaning keeps ordinary prose like this sentence fully intact here"
        : String).data := by
    simp [remFn, fnMatchAt]
  exact ⟨⟨h1, h2⟩,
    semantic_filter_idempotent _ _ h1 h2 (by decide) h3 h4 h5⟩

set_option maxRecDepth 400000 in
/-- Claim C8 counterexample.  The raw block carries a doubled space inside
"This  article", so no garbage trigger fires on it; cleaning collapses the
whitespace, the cleaned block is accepted by `is_semantic_block`, yet the
collapsed text now contains the trigger phrase
"This article has multiple issues", so re-applying the filter returns
`none` instead of the block itself. -/
theorem semantic_filter_idempotent_counterexample :
    clean_wikipedia_garbage
        "This  article has multiple issues that we should discuss now"
      = some "This article has multiple issues that we should discuss now"
    ∧ is_semantic_block
        "This article has multiple issues that we should discuss now" = true
    ∧ clean_wikipedia_garbage
        "This article has multiple issues that we should discuss now"
      = none := by
  refine ⟨?_, ?_, ?_⟩
  · simp [clean_wikipedia_garbage, garbageTrigger, hasSubCI, hasPreCI, dropPreCI,
      lowerEq, scanAny, jumpToNavAt, cleanupText, cleanupWs, remHide, remLearn,
      remFn, hideMatchAt, learnMatchAt, fnMatchAt, scanToParen, collapseWs,
      pyStrip, dropTrailingWs, pyIsSpace, hasSub, hasPre]
    decide
  · simp [is_semantic_block, pyWords, pyWordsAux, countDDD, dddMatchAt,
      pyIsSpace, minWordsPerBlock, isWordCharPy]
  · decide

/-! ## Input interface: claim C9 counterexample -/

set_option maxRecDepth 400000 in
/-- Claim C9 counterexample.  The same body yields chunks when supplied
under `text` but none when supplied only under `document_text`: the code
reads `obj.get("text") or ""` and never falls back to `document_text`. -/
theorem document_text_fallback_counterexample :
    process_record toyParse charEnc charDec (fun _ => "")
        ⟨none, none, none, some toyDoc, none⟩ 1 = []
    ∧ process_record toyParse charEnc charDec (fun _ => "")
        ⟨none, none, some toyDoc, none, none⟩ 1 ≠ [] := by
  constructor
  · rfl
  · have hclean : clean_wikipedia_garbage toyDoc = some toyDoc := by
      simp [toyDoc, clean_wikipedia_garbage, garbageTrigger, hasSubCI, hasPreCI,
        dropPreCI, lowerEq, scanAny, jumpToNavAt, cleanupText, cleanupWs,
        remHide, remLearn, remFn, hideMatchAt, learnMatchAt, fnMatchAt,
        scanToParen, collapseWs, pyStrip, dropTrailingWs, pyIsSpace, hasSub,
        hasPre]
      decide
    have hsem : is_semantic_block toyDoc = true := by
      simp [toyDoc, is_semantic_block, pyWords, pyWordsAux, countDDD,
        dddMatchAt, pyIsSpace, minWordsPerBlock, isWordCharPy]
    have h1 : parseHtmlNodes (toyParse toyDoc) = [⟨"Summary", toyDoc⟩] := by
      simp only [toyParse, parseHtmlNodes, List.foldl_cons, List.foldl_nil,
        parseStep, hclean, hsem]
      decide
    have hbody : (⟨none, none, some toyDoc, none, none⟩ : Record).text.getD ""
        = toyDoc := rfl
    simp only [process_record, hbody, h1]
    decide

end Chunking
